import Mathlib

/-!
# Verification of the AACS broadcast-encryption engine

Shallow embedding of the repository's core (`src/aacs/__init__.py`,
`src/aacs/tree.py`, `src/aacs/encryption.py`) and proofs about it.

Bytes are modelled as `Nat`; byte strings as `List Nat`.  The AES-CBC
primitive (an external collaborator of the core, provided by the
`cryptography` package) is modelled as an ideal cipher over a symbolic
alphabet `WSym`: a symbol is either a plain byte or one position of the
ciphertext obtained by encrypting a byte-string plaintext under a byte-string
key and IV.  Encryption is length-preserving (as AES-CBC is on block-aligned
input); decryption recovers the plaintext exactly when key and IV match and
otherwise returns the ciphertext symbols unchanged, which can never collide
with the literal byte tags — this realises the ideal-cipher assumption the
spec makes ("assuming the cipher is secure and keys are independently
random").  Randomness consumed by the Python code (`get_random_key`,
`os.urandom` IVs) is passed to the embedded operations as explicit arguments.
-/

/-- `TAG_VALID = b'is_valid_aacskey'` (16 ASCII bytes), from `src/aacs/__init__.py`. -/
def TAG_VALID_B : List Nat :=
  [105, 115, 95, 118, 97, 108, 105, 100, 95, 97, 97, 99, 115, 107, 101, 121]

/-- `TAG_SEPARATOR = b'END_OF_KEYS'` (11 ASCII bytes), from `src/aacs/__init__.py`. -/
def TAG_SEPARATOR_B : List Nat :=
  [69, 78, 68, 95, 79, 70, 95, 75, 69, 89, 83]

/-- One symbol of the wire alphabet: a plain byte, or position `i` of the
ciphertext `E(key, iv, pt)` of the ideal cipher. -/
inductive WSym where
  | raw (b : Nat)
  | enc (key : List Nat) (iv : List Nat) (pt : List Nat) (i : Nat)
deriving DecidableEq, Repr

/-- `TAG_VALID` as wire symbols. -/
def TAG_VALID_S : List WSym := TAG_VALID_B.map WSym.raw

/-- `TAG_SEPARATOR` as wire symbols. -/
def TAG_SEPARATOR_S : List WSym := TAG_SEPARATOR_B.map WSym.raw

/-- Recover the byte string underlying an all-`raw` symbol string. -/
def asRaw : List WSym → Option (List Nat)
  | [] => some []
  | WSym.raw b :: rest => (asRaw rest).map (b :: ·)
  | _ => none

/-- Ciphertext of `pt` under `key`/`iv` in the ideal-cipher model: one opaque
symbol per plaintext byte (AES-CBC is length-preserving on block-aligned
input). -/
def encCT (key iv pt : List Nat) : List WSym :=
  (List.range pt.length).map (WSym.enc key iv pt)

/-- `AES_encrypt(key, plaintext) -> (iv, ciphertext)` from
`src/aacs/encryption.py`; the random IV is an explicit argument. -/
def AES_encrypt (key iv pt : List Nat) : List Nat × List WSym :=
  (iv, encCT key iv pt)

/-- `AES_decrypt(key, iv, ciphertext)` from `src/aacs/encryption.py`, in the
ideal-cipher model: if `ciphertext` is exactly the encryption of some `pt`
under the given key and IV, return `pt`; otherwise the result is
uninterpretable, modelled by returning the ciphertext symbols themselves
(they never begin with a literal byte tag).  The key arrives as symbols
because `decrypt` feeds the recovered content key back in. -/
def AES_decrypt (key iv ct : List WSym) : List WSym :=
  match asRaw key, asRaw iv with
  | some kb, some ivb =>
    match ct with
    | WSym.enc kb' ivb' pt _ :: _ =>
      if kb' = kb ∧ ivb' = ivb ∧ ct = encCT kb' ivb' pt then pt.map WSym.raw else ct
    | _ => ct
  | _, _ => ct

/-- `add_padding(m, bit_size=128)` from `src/aacs/encryption.py`:
append `p = 16 - len(m) % 16` bytes of value `p - 1`. -/
def add_padding (m : List Nat) : List Nat :=
  let p := 16 - m.length % 16
  m ++ List.replicate p (p - 1)

/-- `remove_padding(m)` from `src/aacs/encryption.py`: read `v = m[-1]` and
drop the last `v + 1` bytes.  On the empty string the source raises
`IndexError` (`m[-1]` is out of range), modelled by `none`. -/
def remove_padding (m : List Nat) : Option (List Nat) :=
  match m.getLast? with
  | none => none
  | some v => some (m.take (m.length - (v + 1)))

/-- `remove_padding` lifted to wire symbols (as applied by `AACS.decrypt` to
the decrypted content): the final symbol must be a plain byte to have a
value; the empty string is the source's `IndexError`, modelled by `none`. -/
def remove_paddingS (m : List WSym) : Option (List WSym) :=
  match m.getLast? with
  | none => none
  | some (WSym.raw v) => some (m.take (m.length - (v + 1)))
  | some _ => none

/-- `ceil(log2 n)` as computed in `BinaryTree.__init__`
(`src/aacs/tree.py`): the least `t` with `n ≤ 2 ^ t`.  (Such a `t` always
lies below `n + 1` since `n ≤ 2 ^ n`.) -/
def ceilLog2 (n : Nat) : Nat :=
  (((List.range (n + 1)).filter (fun t => n ≤ 2 ^ t)).headD 0)

/-- `BinaryTree.get_parent` (`src/aacs/tree.py`): integer halving. -/
def get_parent (node_id : Nat) : Nat := node_id / 2

/-- `BinaryTree.get_sibling` (`src/aacs/tree.py`):
`node_id - 1 if node_id % 2 else node_id + 1`. -/
def get_sibling (node_id : Nat) : Nat :=
  if node_id % 2 = 1 then node_id - 1 else node_id + 1

/-- Iteration bound for `get_path_to_root`: the chain
`i, i/2, i/4, …` reaches `1` in at most `i` halvings, so `fuel = i`
suffices (`pathAux_congr` below shows the value is fuel-independent). -/
def pathAux : Nat → Nat → List Nat
  | 0, i => [i]
  | fuel + 1, i => if i ≤ 1 then [i] else i :: pathAux fuel (i / 2)

/-- `BinaryTree.get_path_to_root` (`src/aacs/tree.py`): the list
`[id, parent(id), …, 1]`.  (The source's `while` loop does not terminate on
`id = 0`, which no caller ever passes; the model returns `[0]` there.) -/
def get_path_to_root (node_id : Nat) : List Nat :=
  pathAux node_id node_id

/-- Insert into a ≤-sorted list, keeping it sorted. -/
def insertAsc (x : Nat) : List Nat → List Nat
  | [] => [x]
  | y :: ys => if x ≤ y then x :: y :: ys else y :: insertAsc x ys

instance : LeftCommutative insertAsc where
  left_comm a b l := by
    induction l with
    | nil =>
      by_cases h1 : a ≤ b <;> by_cases h2 : b ≤ a <;>
        simp [insertAsc, h1, h2] <;> omega
    | cons y ys ih =>
      by_cases hb : b ≤ y <;> by_cases ha : a ≤ y <;>
        by_cases hab : a ≤ b <;> by_cases hba : b ≤ a <;>
        simp [insertAsc, hb, ha, hab, hba, ih] <;> omega

/-- `tuple(sorted(–))` on a set of node ids: ascending, duplicate-free
(the multiset of a `Finset` already is). -/
def sortedOf (s : Finset Nat) : List Nat :=
  Multiset.foldr insertAsc [] s.val

/-- Errors surfaced by the core (`KeyNotFound`, `ValueError('Separator not
found')`, and the `IndexError` escaping `remove_padding`). -/
inductive DErr where
  | keyNotFound
  | separatorNotFound
  | padOutOfRange
deriving DecidableEq, Repr

/-- The engine state: `BinaryTree` fields (`src/aacs/tree.py`) flattened
with the `AACS` fields (`src/aacs/__init__.py`).  `nodes` is the key table
`self.nodes`, filled with independently drawn random keys at construction
and immutable afterwards; it is a function because the model takes the
drawn keys as an input. -/
structure AACS where
  n : Nat
  t : Nat
  depth : Nat
  first_leaf : Nat
  last_leaf : Nat
  nodes : Nat → List Nat
  S : Finset Nat
  T : Finset Nat
  S_cover : List Nat

/-- `BinaryTree.get_leaves`: `tuple(range(first_leaf, last_leaf + 1))`. -/
def AACS.get_leaves (a : AACS) : List Nat :=
  List.range' a.first_leaf (a.last_leaf + 1 - a.first_leaf)

/-- `AACS.__get_S_cover` (`src/aacs/__init__.py`): if `len(S) == n` the
cover is `{1}`; otherwise it collects the sibling of every non-root node on
the root path of every revoked leaf, and returns the set sorted ascending. -/
def AACS.getScover (a : AACS) : List Nat :=
  sortedOf
    (if a.S.card = a.n then {1}
     else a.T.biUnion fun i =>
       (((get_path_to_root i).filter (fun j => j ≠ 1)).map get_sibling).toFinset)

/-- `AACS.__init__(n)` (with `BinaryTree.__init__`): sizes from
`t = ceil(log2 n)`, `S` = all leaves, `T = {}`, and the initial cover. -/
def AACS.init (n : Nat) (nodes : Nat → List Nat) : AACS :=
  let t := ceilLog2 n
  let first_leaf := 2 ^ t
  let last_leaf := 2 ^ (t + 1) - 1
  let a0 : AACS :=
    { n := n, t := t, depth := t + 1, first_leaf := first_leaf,
      last_leaf := last_leaf, nodes := nodes,
      S := (List.range' first_leaf (last_leaf + 1 - first_leaf)).toFinset,
      T := ∅, S_cover := [] }
  { a0 with S_cover := a0.getScover }

/-- `AACS.revoke(id)`: if `id ∈ S`, move it to `T`, rebuild the cover and
return `True`; otherwise return `False` leaving the state untouched. -/
def AACS.revoke (a : AACS) (id : Nat) : Bool × AACS :=
  if id ∈ a.S then
    let a' := { a with S := a.S.erase id, T := insert id a.T }
    (true, { a' with S_cover := a'.getScover })
  else (false, a)

/-- `AACS.__get_known_keys(node_id)`: the keys along the path to the root. -/
def AACS.known_keys (a : AACS) (node_id : Nat) : List (List Nat) :=
  (get_path_to_root node_id).map a.nodes

/-- One key block of `AACS.encrypt`: `b''.join(AES_encrypt(k_u, TAG_VALID + k))`,
i.e. the 16-byte IV followed by the encryption of the tagged content key.
`p` carries (index of the block, cover node id); the index selects the IV
drawn for that `AES_encrypt` call. -/
def blockFn (nodes : Nat → List Nat) (k : List Nat) (ivs : Nat → List Nat)
    (p : Nat × Nat) : List WSym :=
  ((ivs p.1).map WSym.raw) ++ encCT (nodes p.2) (ivs p.1) (TAG_VALID_B ++ k)

/-- `AACS.encrypt(m)` (`src/aacs/__init__.py`): one key block per cover node
in cover order, then `TAG_SEPARATOR`, then `IV ∥ E(k, add_padding(m))`.
The content key `k` and the IVs (one per `AES_encrypt` call) are the
randomness drawn by the source, passed explicitly. -/
def AACS.encrypt (a : AACS) (k : List Nat) (ivs : Nat → List Nat)
    (ivc : List Nat) (m : List Nat) : List WSym :=
  ((a.S_cover.enum.map (blockFn a.nodes k ivs)).flatten)
    ++ TAG_SEPARATOR_S
    ++ (ivc.map WSym.raw ++ encCT k ivc (add_padding m))

/-- The inner `for k_u in self.__get_known_keys(node_id)` trial loop of
`AACS.decrypt`: attempt the block under each known key in path order and
accept the first plaintext that begins with `TAG_VALID`, returning the rest
(the content key). -/
def tryKeys (ks : List (List Nat)) (c_u : List WSym) : Option (List WSym) :=
  match ks with
  | [] => none
  | k_u :: rest =>
    let k := AES_decrypt (k_u.map WSym.raw) (c_u.take 16) (c_u.drop 16)
    if TAG_VALID_S.isPrefixOf k then some (k.drop TAG_VALID_S.length)
    else tryKeys rest c_u

/-- The `while` scan of `AACS.decrypt`: at each 48-byte stride, stop if the
stream starts with `TAG_SEPARATOR`; otherwise, while no key has been found
yet, trial-decrypt the current block, and advance.  Returns the recovered
key (if any) and `some` remaining stream at the separator (`none` if the
stream ran out).  `fuel` bounds the iterations; every step consumes 48
symbols, so `c.length` iterations always suffice (`decryptLoop_congr` shows
the result is fuel-independent from that bound up). -/
def decryptLoop (ks : List (List Nat)) :
    Nat → List WSym → Option (List WSym) → Option (List WSym) × Option (List WSym)
  | _, [], recovered => (recovered, none)
  | 0, _ :: _, recovered => (recovered, none)
  | fuel + 1, c@(_ :: _), recovered =>
    if TAG_SEPARATOR_S.isPrefixOf c then (recovered, some c)
    else
      decryptLoop ks fuel (c.drop 48)
        (match recovered with
         | none => tryKeys ks (c.take 48)
         | some k => some k)

/-- `AACS.decrypt(node_id, c)` (`src/aacs/__init__.py`): scan for the
content key and the separator; `KeyNotFound` if no key was recovered,
`ValueError('Separator not found')` if the stream ran out otherwise; else
strip the separator and decode `IV ∥ E(k, padded)`, unpadding the result. -/
def AACS.decrypt (a : AACS) (node_id : Nat) (c : List WSym) :
    Except DErr (List WSym) :=
  match decryptLoop (a.known_keys node_id) c.length c none with
  | (none, _) => .error .keyNotFound
  | (some _, none) => .error .separatorNotFound
  | (some k, some crest) =>
    let c2 := crest.drop TAG_SEPARATOR_S.length
    match remove_paddingS (AES_decrypt k (c2.take 16) (c2.drop 16)) with
    | none => .error .padOutOfRange
    | some m => .ok m

/-- Engine states produced by `AACS(n)` followed by any sequence of
`revoke` calls. -/
inductive Reachable : AACS → Prop where
  | init : ∀ n nodes, Reachable (AACS.init n nodes)
  | revoke : ∀ a id, Reachable a → Reachable (a.revoke id).2

-- Concrete instances used by several claims' concrete theorems.

/-- A concrete key table for examples: node `i` holds the byte string `[i]`. -/
def exKeys (i : Nat) : List Nat := [i]

/-- A concrete 16-byte content key. -/
def exK : List Nat := List.replicate 16 7

/-- Concrete 16-byte IVs for the key blocks. -/
def exIvs (_ : Nat) : List Nat := List.replicate 16 200

/-- A concrete 16-byte IV for the content. -/
def exIvc : List Nat := List.replicate 16 9

/-- Shape of every reachable engine state: consistent tree geometry,
`T` a set of leaves, `S` its complement among the leaves, and `S_cover`
the value `__get_S_cover` computes from them. -/
def GoodState (a : AACS) : Prop :=
  a.t = ceilLog2 a.n ∧
  a.first_leaf = 2 ^ a.t ∧
  a.last_leaf = 2 ^ (a.t + 1) - 1 ∧
  a.T ⊆ Finset.Icc (2 ^ a.t) (2 ^ (a.t + 1) - 1) ∧
  a.S = Finset.Icc (2 ^ a.t) (2 ^ (a.t + 1) - 1) \ a.T ∧
  a.S_cover = a.getScover

/-- The set of leaves below node `u` of a tree with leaf ids
`2 ^ t .. 2 ^ (t + 1) - 1` (a leaf descends from `u` iff `u` lies on its
root path). -/
def leafDescendants (t u : Nat) : Finset Nat :=
  (Finset.Icc (2 ^ t) (2 ^ (t + 1) - 1)).filter (fun l => u ∈ get_path_to_root l)

/-- The engine after `AACS(4)`, `revoke(4)`, `revoke(5)`. -/
def exA4 : AACS := (((AACS.init 4 exKeys).revoke 4).2.revoke 5).2

/-- The engine after `AACS(8)`, `revoke(8)`, `revoke(10)`. -/
def exA8 : AACS := (((AACS.init 8 exKeys).revoke 8).2.revoke 10).2

/-- A single well-formed key block addressed to leaf 2 of `AACS.init 2`. -/
def exBlock : List WSym := blockFn (AACS.init 2 exKeys).nodes exK exIvs (0, 2)

/-- A stream that ends right after the separator: one recoverable key block,
the separator, and no content. -/
def truncStream : List WSym := exBlock ++ TAG_SEPARATOR_S

instance : DecidableEq (Except DErr (List WSym)) := fun a b =>
  match a, b with
  | .ok x, .ok y => decidable_of_iff (x = y) (by simp)
  | .error x, .error y => decidable_of_iff (x = y) (by simp)
  | .ok _, .error _ => isFalse (by simp)
  | .error _, .ok _ => isFalse (by simp)

set_option maxRecDepth 10000

-- ### Basic facts about the wire alphabet

theorem raw_injective : Function.Injective WSym.raw := fun _ _ h => WSym.raw.inj h

theorem asRaw_map_raw (l : List Nat) : asRaw (l.map WSym.raw) = some l := by
  induction l with
  | nil => rfl
  | cons b bs ih => simp [asRaw, ih]

theorem length_encCT (key iv pt : List Nat) : (encCT key iv pt).length = pt.length := by
  simp [encCT]

/-- `List.isPrefixOf`, characterised through `take`. -/
theorem isPrefixOf_iff_take (l c : List WSym) :
    l.isPrefixOf c = true ↔ c.take l.length = l := by
  induction l generalizing c with
  | nil => simp [List.isPrefixOf]
  | cons a as ih =>
    cases c with
    | nil => simp [List.isPrefixOf]
    | cons b bs =>
      simp only [List.isPrefixOf, Bool.and_eq_true, beq_iff_eq, ih,
        List.length_cons, List.take_succ_cons, List.cons.injEq]
      constructor
      · rintro ⟨rfl, h⟩; exact ⟨rfl, h⟩
      · rintro ⟨rfl, h⟩; exact ⟨rfl, h⟩

theorem sep_isPrefixOf_append (tail : List WSym) :
    TAG_SEPARATOR_S.isPrefixOf (TAG_SEPARATOR_S ++ tail) = true := by
  rw [isPrefixOf_iff_take, List.take_left]

/-- A stride position that starts with 16 plain IV bytes whose first 11 bytes
are not the separator tag does not look like the separator. -/
theorem sep_not_prefix_of_iv (iv : List Nat) (hiv : iv.length = 16)
    (hsep : iv.take 11 ≠ TAG_SEPARATOR_B) (x : List WSym) :
    ¬ (TAG_SEPARATOR_S.isPrefixOf ((iv.map WSym.raw) ++ x) = true) := by
  rw [isPrefixOf_iff_take]
  intro h
  apply hsep
  have hlen : (TAG_SEPARATOR_S).length = 11 := rfl
  rw [hlen, List.take_append_eq_append_take] at h
  have h11 : (11 - (iv.map WSym.raw).length) = 0 := by simp [hiv]
  rw [h11, List.take_zero, List.append_nil, ← List.map_take] at h
  exact List.map_injective_iff.2 raw_injective h

/-- A nonempty ciphertext starts with the symbol at index `0`. -/
theorem encCT_cons (key iv pt : List Nat) (q : Nat) (hpt : pt.length = q + 1) :
    ∃ rest, encCT key iv pt = WSym.enc key iv pt 0 :: rest := by
  rw [encCT, hpt, List.range_succ_eq_map]
  exact ⟨_, rfl⟩

/-- Ciphertext symbols never spell the validity tag. -/
theorem tag_valid_not_prefix_encCT (key iv pt : List Nat) :
    ¬ (TAG_VALID_S.isPrefixOf (encCT key iv pt) = true) := by
  cases hpt : pt.length with
  | zero =>
    have hnil : encCT key iv pt = [] := by rw [encCT, hpt]; rfl
    rw [hnil]
    decide
  | succ q =>
    obtain ⟨rest, hrest⟩ := encCT_cons key iv pt q hpt
    rw [hrest]
    have hv : TAG_VALID_S = WSym.raw 105 :: (TAG_VALID_B.tail).map WSym.raw := rfl
    rw [hv]
    simp [List.isPrefixOf]

/-- Decryption of a genuine ciphertext block under its own key and IV. -/
theorem AES_decrypt_good (key iv pt : List Nat) :
    AES_decrypt (key.map WSym.raw) (iv.map WSym.raw) (encCT key iv pt)
      = pt.map WSym.raw := by
  unfold AES_decrypt
  rw [asRaw_map_raw, asRaw_map_raw]
  cases hpt : pt.length with
  | zero =>
    have hp : pt = [] := List.length_eq_zero.1 hpt
    subst hp
    rfl
  | succ q =>
    obtain ⟨rest, hrest⟩ := encCT_cons key iv pt q hpt
    rw [hrest]
    show (if key = key ∧ iv = iv ∧ WSym.enc key iv pt 0 :: rest = encCT key iv pt
          then pt.map WSym.raw else WSym.enc key iv pt 0 :: rest) = pt.map WSym.raw
    rw [if_pos ⟨rfl, rfl, hrest.symm⟩]

/-- Decryption of a genuine ciphertext block under a different key returns the
(uninterpretable) ciphertext unchanged. -/
theorem AES_decrypt_bad (kt key iv pt : List Nat) (hne : key ≠ kt) :
    AES_decrypt (kt.map WSym.raw) (iv.map WSym.raw) (encCT key iv pt)
      = encCT key iv pt := by
  unfold AES_decrypt
  rw [asRaw_map_raw, asRaw_map_raw]
  cases hpt : pt.length with
  | zero =>
    have hnil : encCT key iv pt = [] := by rw [encCT, hpt]; rfl
    rw [hnil]
  | succ q =>
    obtain ⟨rest, hrest⟩ := encCT_cons key iv pt q hpt
    rw [hrest]
    show (if key = kt ∧ iv = iv ∧ WSym.enc key iv pt 0 :: rest = encCT key iv pt
          then pt.map WSym.raw else WSym.enc key iv pt 0 :: rest)
        = WSym.enc key iv pt 0 :: rest
    rw [if_neg]
    rintro ⟨h, -, -⟩
    exact hne h

-- ### Paths in the tree

theorem pathAux_congr : ∀ (f1 f2 i : Nat), i ≤ f1 → i ≤ f2 → pathAux f1 i = pathAux f2 i := by
  intro f1
  induction f1 with
  | zero =>
    intro f2 i h1 _
    have : i = 0 := by omega
    subst this
    cases f2 with
    | zero => rfl
    | succ f2 => simp [pathAux]
  | succ f1 ih =>
    intro f2 i h1 h2
    cases f2 with
    | zero =>
      have : i = 0 := by omega
      subst this
      simp [pathAux]
    | succ f2 =>
      by_cases hi : i ≤ 1
      · simp [pathAux, hi]
      · simp only [pathAux, if_neg hi]
        rw [ih f2 (i / 2) (by omega) (by omega)]

/-- The defining recursion of `get_path_to_root`. -/
theorem path_eq (i : Nat) :
    get_path_to_root i = if i ≤ 1 then [i] else i :: get_path_to_root (i / 2) := by
  by_cases h : i ≤ 1
  · rw [if_pos h]
    interval_cases i <;> rfl
  · rw [if_neg h]
    obtain ⟨f, rfl⟩ : ∃ f, i = f + 1 := ⟨i - 1, by omega⟩
    show pathAux (f + 1) (f + 1) = _
    rw [pathAux, if_neg h]
    unfold get_path_to_root
    rw [pathAux_congr f ((f + 1) / 2) ((f + 1) / 2) (by omega) le_rfl]

theorem self_mem_path (i : Nat) : i ∈ get_path_to_root i := by
  rw [path_eq]
  by_cases h : i ≤ 1 <;> simp [h]

theorem one_mem_path (d : Nat) (hd : 1 ≤ d) : 1 ∈ get_path_to_root d := by
  induction d using Nat.strong_induction_on with
  | _ d ih =>
    rw [path_eq]
    by_cases h : d ≤ 1
    · have : d = 1 := by omega
      simp [h, this]
    · rw [if_neg h]
      exact List.mem_cons_of_mem _ (ih (d / 2) (by omega) (by omega))

theorem mem_path_div (r : Nat) (hr : 1 ≤ r) :
    ∀ j, 1 ≤ r / 2 ^ j → r / 2 ^ j ∈ get_path_to_root r := by
  intro j
  induction j generalizing r with
  | zero =>
    intro _
    simpa using self_mem_path r
  | succ j ih =>
    intro hdiv
    by_cases h : r ≤ 1
    · exfalso
      have h1 : r = 1 := by omega
      subst h1
      have : (1 : Nat) / 2 ^ (j + 1) = 0 := Nat.div_eq_of_lt (Nat.one_lt_two_pow (by omega))
      omega
    · rw [path_eq, if_neg h]
      have hsplit : r / 2 ^ (j + 1) = (r / 2) / 2 ^ j := by
        rw [Nat.div_div_eq_div_mul, ← pow_succ']
      rw [hsplit]
      rw [hsplit] at hdiv
      exact List.mem_cons_of_mem _ (ih (r / 2) (by omega) hdiv)

-- ### Sorted output

theorem mem_insertAsc {y x : Nat} {l : List Nat} :
    y ∈ insertAsc x l ↔ y = x ∨ y ∈ l := by
  induction l with
  | nil => simp [insertAsc]
  | cons a as ih =>
    by_cases h : x ≤ a <;> simp [insertAsc, h, ih] <;> tauto

theorem sorted_insertAsc (x : Nat) (l : List Nat) (h : l.Sorted (· ≤ ·)) :
    (insertAsc x l).Sorted (· ≤ ·) := by
  induction l with
  | nil => simp [insertAsc]
  | cons a as ih =>
    rw [List.sorted_cons] at h
    by_cases hx : x ≤ a
    · rw [insertAsc, if_pos hx, List.sorted_cons]
      refine ⟨?_, by rw [List.sorted_cons]; exact h⟩
      intro b hb
      rcases List.mem_cons.1 hb with rfl | hb
      · exact hx
      · exact le_trans hx (h.1 b hb)
    · rw [insertAsc, if_neg hx, List.sorted_cons]
      refine ⟨?_, ih h.2⟩
      intro b hb
      rcases mem_insertAsc.1 hb with rfl | hb
      · omega
      · exact h.1 b hb

theorem mem_foldr_insertAsc (y : Nat) (s : Multiset Nat) :
    y ∈ Multiset.foldr insertAsc [] s ↔ y ∈ s := by
  induction s using Multiset.induction_on with
  | empty => simp
  | cons a s ih => simp [Multiset.foldr_cons, mem_insertAsc, ih]

theorem mem_sortedOf {y : Nat} {s : Finset Nat} : y ∈ sortedOf s ↔ y ∈ s := by
  unfold sortedOf
  rw [mem_foldr_insertAsc]
  rfl

theorem sorted_sortedOf (s : Finset Nat) : (sortedOf s).Sorted (· ≤ ·) := by
  unfold sortedOf
  induction s.val using Multiset.induction_on with
  | empty => simp
  | cons a s ih =>
    rw [Multiset.foldr_cons]
    exact sorted_insertAsc _ _ ih

-- ### The state invariant

theorem init_good (n : Nat) (nodes : Nat → List Nat) : GoodState (AACS.init n nodes) := by
  unfold AACS.init GoodState
  refine ⟨rfl, rfl, rfl, Finset.empty_subset _, ?_, rfl⟩
  rw [Finset.sdiff_empty]
  ext x
  have h2 : 2 ^ (ceilLog2 n) < 2 ^ (ceilLog2 n + 1) :=
    Nat.pow_lt_pow_right (by omega) (by omega)
  simp only [List.mem_toFinset, List.mem_range', Finset.mem_Icc]
  constructor
  · rintro ⟨i, hi, rfl⟩; omega
  · intro hx; exact ⟨x - 2 ^ (ceilLog2 n), by omega, by omega⟩

theorem revoke_good (a : AACS) (id : Nat) (h : GoodState a) :
    GoodState (a.revoke id).2 := by
  obtain ⟨h1, h2, h3, h4, h5, h6⟩ := h
  unfold AACS.revoke
  by_cases hid : id ∈ a.S
  · rw [if_pos hid]
    refine ⟨h1, h2, h3, ?_, ?_, rfl⟩
    · intro x hx
      rcases Finset.mem_insert.1 hx with rfl | hx
      · rw [h5] at hid
        exact (Finset.mem_sdiff.1 hid).1
      · exact h4 hx
    · rw [h5]
      ext x
      simp only [Finset.mem_erase, Finset.mem_sdiff, Finset.mem_insert]
      tauto
  · rw [if_neg hid]
    exact ⟨h1, h2, h3, h4, h5, h6⟩

theorem reachable_good {a : AACS} (h : Reachable a) : GoodState a := by
  induction h with
  | init n nodes => exact init_good n nodes
  | revoke a id _ ih => exact revoke_good a id ih

-- ### The cover branch taken by `__get_S_cover`

theorem card_S_of_good (a : AACS) (h : GoodState a) (hn : a.n = 2 ^ a.t) :
    a.S.card = a.n ↔ a.T = ∅ := by
  obtain ⟨-, -, -, h4, h5, -⟩ := h
  have hIcc : (Finset.Icc (2 ^ a.t) (2 ^ (a.t + 1) - 1)).card = 2 ^ a.t := by
    rw [Nat.card_Icc]
    have h2 : 2 ^ (a.t + 1) = 2 * 2 ^ a.t := by rw [pow_succ]; ring
    have hp : 1 ≤ 2 ^ a.t := Nat.one_le_two_pow
    omega
  have hcard : a.S.card = 2 ^ a.t - a.T.card := by
    rw [h5, Finset.card_sdiff h4, hIcc]
  have hTle : a.T.card ≤ 2 ^ a.t := by
    calc a.T.card ≤ (Finset.Icc (2 ^ a.t) (2 ^ (a.t + 1) - 1)).card :=
          Finset.card_le_card h4
      _ = 2 ^ a.t := hIcc
  rw [hcard, hn, ← Finset.card_eq_zero]
  have hp : 1 ≤ 2 ^ a.t := Nat.one_le_two_pow
  omega

theorem scover_of_empty (a : AACS) (h : GoodState a) (hn : a.n = 2 ^ a.t)
    (hT : a.T = ∅) : a.S_cover = [1] := by
  rw [h.2.2.2.2.2]
  unfold AACS.getScover
  rw [if_pos ((card_S_of_good a h hn).2 hT)]
  decide

theorem scover_of_nonempty (a : AACS) (h : GoodState a) (hn : a.n = 2 ^ a.t)
    (hT : a.T ≠ ∅) :
    a.S_cover = sortedOf (a.T.biUnion fun i =>
      (((get_path_to_root i).filter (fun j => j ≠ 1)).map get_sibling).toFinset) := by
  rw [h.2.2.2.2.2]
  unfold AACS.getScover
  rw [if_neg (fun hc => hT ((card_S_of_good a h hn).1 hc))]

-- ### The cover meets the path of every valid leaf

theorem exists_transition (P : Nat → Prop) :
    ∀ t, ¬ P 0 → P t → ∃ j < t, ¬ P j ∧ P (j + 1) := by
  intro t h0 ht
  induction t with
  | zero => exact absurd ht h0
  | succ t ih =>
    by_cases h : P t
    · obtain ⟨j, hj, h1, h2⟩ := ih h
      exact ⟨j, Nat.lt_succ_of_lt hj, h1, h2⟩
    · exact ⟨t, Nat.lt_succ_self t, h, ht⟩

theorem leaf_div_pow (t x : Nat) (h1 : 2 ^ t ≤ x) (h2 : x ≤ 2 ^ (t + 1) - 1) :
    x / 2 ^ t = 1 := by
  have hp : 0 < 2 ^ t := Nat.pos_pow_of_pos t (by omega)
  have hs : 2 ^ (t + 1) = 2 * 2 ^ t := by rw [pow_succ]; ring
  have hlow : 1 ≤ x / 2 ^ t := (Nat.le_div_iff_mul_le hp).2 (by omega)
  have hhigh : x / 2 ^ t < 2 := (Nat.div_lt_iff_lt_mul hp).2 (by omega)
  omega

/-- Core combinatorial fact about `__get_S_cover`'s sibling collection: for a
nonempty revoked leaf set `T` and any leaf `d ∉ T`, some collected sibling
lies on `d`'s root path (the sibling collected at the point where `d`'s path
diverges from the path of the revoked leaf closest to it). -/
theorem cover_meets_path (t : Nat) (T : Finset Nat)
    (hT : T ⊆ Finset.Icc (2 ^ t) (2 ^ (t + 1) - 1)) (hne : T.Nonempty)
    (d : Nat) (hd1 : 2 ^ t ≤ d) (hd2 : d ≤ 2 ^ (t + 1) - 1) (hdT : d ∉ T) :
    ∃ r ∈ T, ∃ j ∈ get_path_to_root r, j ≠ 1 ∧ get_sibling j ∈ get_path_to_root d := by
  set P : Nat → Prop := fun j => ∃ r ∈ T, r / 2 ^ j = d / 2 ^ j with hP
  have hP0 : ¬ P 0 := by
    rintro ⟨r, hr, hrd⟩
    simp only [pow_zero, Nat.div_one] at hrd
    exact hdT (hrd ▸ hr)
  have hPt : P t := by
    obtain ⟨r0, hr0⟩ := hne
    have hb := Finset.mem_Icc.1 (hT hr0)
    exact ⟨r0, hr0, by rw [leaf_div_pow t r0 hb.1 hb.2, leaf_div_pow t d hd1 hd2]⟩
  obtain ⟨j, hjt, hPj, hPj1⟩ := exists_transition P t hP0 hPt
  obtain ⟨r, hrT, hr⟩ := hPj1
  have hrb := Finset.mem_Icc.1 (hT hrT)
  have hpowj : (2 : Nat) ^ (j + 1) ≤ 2 ^ t := Nat.pow_le_pow_right (by omega) (by omega)
  have hsucc : (2 : Nat) ^ (j + 1) = 2 ^ j * 2 := pow_succ 2 j
  have hpj : 0 < 2 ^ j := Nat.pos_pow_of_pos j (by omega)
  have hrc2 : 2 ≤ r / 2 ^ j := (Nat.le_div_iff_mul_le hpj).2 (by omega)
  have hch2 : 2 ≤ d / 2 ^ j := (Nat.le_div_iff_mul_le hpj).2 (by omega)
  have hne' : r / 2 ^ j ≠ d / 2 ^ j := fun h => hPj ⟨r, hrT, h⟩
  have hhalf : (r / 2 ^ j) / 2 = (d / 2 ^ j) / 2 := by
    rw [Nat.div_div_eq_div_mul, Nat.div_div_eq_div_mul, ← hsucc, hr]
  have hsib : get_sibling (r / 2 ^ j) = d / 2 ^ j := by
    unfold get_sibling
    split <;> omega
  refine ⟨r, hrT, r / 2 ^ j, mem_path_div r (by omega) j (by omega), by omega, ?_⟩
  rw [hsib]
  exact mem_path_div d (by omega) j (by omega)

/-- On every reachable power-of-two-sized state, the computed cover contains
an ancestor (or self) of every valid leaf. -/
theorem scover_meets_path (a : AACS) (h : GoodState a) (hn : a.n = 2 ^ a.t)
    (d : Nat) (hd : d ∈ a.S) :
    ∃ u ∈ a.S_cover, u ∈ get_path_to_root d := by
  have hdIcc := (Finset.mem_sdiff.1 (h.2.2.2.2.1 ▸ hd)).1
  have hdT := (Finset.mem_sdiff.1 (h.2.2.2.2.1 ▸ hd)).2
  have hdb := Finset.mem_Icc.1 hdIcc
  by_cases hT : a.T = ∅
  · refine ⟨1, ?_, one_mem_path d (by have := Nat.one_le_two_pow (n := a.t); omega)⟩
    rw [scover_of_empty a h hn hT]
    exact List.mem_singleton.2 rfl
  · obtain ⟨r, hrT, jj, hjmem, hjne, hsib⟩ :=
      cover_meets_path a.t a.T h.2.2.2.1 (Finset.nonempty_iff_ne_empty.2 hT) d hdb.1 hdb.2 hdT
    refine ⟨get_sibling jj, ?_, hsib⟩
    rw [scover_of_nonempty a h hn hT]
    rw [mem_sortedOf]
    rw [Finset.mem_biUnion]
    refine ⟨r, hrT, ?_⟩
    rw [List.mem_toFinset]
    exact List.mem_map.2 ⟨jj, List.mem_filter.2 ⟨hjmem, by simpa using hjne⟩, rfl⟩

-- ### Stepping the decrypt scan

theorem decryptLoop_nil (ks : List (List Nat)) (fuel : Nat) (rec : Option (List WSym)) :
    decryptLoop ks fuel [] rec = (rec, none) := by
  cases fuel <;> rfl

theorem decryptLoop_sep_stop (ks : List (List Nat)) (fuel : Nat) (c : List WSym)
    (rec : Option (List WSym)) (hc : c ≠ [])
    (hsep : TAG_SEPARATOR_S.isPrefixOf c = true) :
    decryptLoop ks (fuel + 1) c rec = (rec, some c) := by
  cases c with
  | nil => exact absurd rfl hc
  | cons x xs =>
    show (if TAG_SEPARATOR_S.isPrefixOf (x :: xs) = true then _ else _) = _
    rw [if_pos hsep]

theorem decryptLoop_step (ks : List (List Nat)) (fuel : Nat) (c : List WSym)
    (rec : Option (List WSym)) (hc : c ≠ [])
    (hsep : ¬ (TAG_SEPARATOR_S.isPrefixOf c = true)) :
    decryptLoop ks (fuel + 1) c rec
      = decryptLoop ks fuel (c.drop 48)
          (match rec with
           | none => tryKeys ks (c.take 48)
           | some k => some k) := by
  cases c with
  | nil => exact absurd rfl hc
  | cons x xs =>
    show (if TAG_SEPARATOR_S.isPrefixOf (x :: xs) = true then _ else _) = _
    rw [if_neg hsep]

theorem decryptLoop_congr (ks : List (List Nat)) :
    ∀ (f1 f2 : Nat) (c : List WSym) (rec : Option (List WSym)),
      c.length ≤ f1 → c.length ≤ f2 →
      decryptLoop ks f1 c rec = decryptLoop ks f2 c rec := by
  intro f1
  induction f1 with
  | zero =>
    intro f2 c rec h1 _
    have hc : c = [] := List.length_eq_zero.1 (by omega)
    rw [hc, decryptLoop_nil, decryptLoop_nil]
  | succ f1 ih =>
    intro f2 c rec h1 h2
    cases c with
    | nil => rw [decryptLoop_nil, decryptLoop_nil]
    | cons x xs =>
      cases f2 with
      | zero => simp at h2
      | succ f2 =>
        by_cases hsep : TAG_SEPARATOR_S.isPrefixOf (x :: xs) = true
        · rw [decryptLoop_sep_stop ks f1 _ rec (by simp) hsep,
            decryptLoop_sep_stop ks f2 _ rec (by simp) hsep]
        · rw [decryptLoop_step ks f1 _ rec (by simp) hsep,
            decryptLoop_step ks f2 _ rec (by simp) hsep]
          apply ih
          · simp only [List.length_drop, List.length_cons]
            simp only [List.length_cons] at h1
            omega
          · simp only [List.length_drop, List.length_cons]
            simp only [List.length_cons] at h2
            omega

-- ### Trial decryption of a well-formed key block

theorem tryKeys_block (u : Nat) (nodes : Nat → List Nat) (k : List Nat)
    (hk : k.length = 16) (iv : List Nat) (hiv : iv.length = 16)
    (ks : List (List Nat)) :
    tryKeys ks ((iv.map WSym.raw) ++ encCT (nodes u) iv (TAG_VALID_B ++ k))
      = if nodes u ∈ ks then some (k.map WSym.raw) else none := by
  induction ks with
  | nil => simp [tryKeys]
  | cons k_u rest ih =>
    have hblocktake :
        ((iv.map WSym.raw) ++ encCT (nodes u) iv (TAG_VALID_B ++ k)).take 16
          = iv.map WSym.raw := List.take_left' (by simp [hiv])
    have hblockdrop :
        ((iv.map WSym.raw) ++ encCT (nodes u) iv (TAG_VALID_B ++ k)).drop 16
          = encCT (nodes u) iv (TAG_VALID_B ++ k) := List.drop_left' (by simp [hiv])
    simp only [tryKeys, hblocktake, hblockdrop]
    by_cases he : nodes u = k_u
    · rw [← he, AES_decrypt_good]
      have hpref : TAG_VALID_S.isPrefixOf ((TAG_VALID_B ++ k).map WSym.raw) = true := by
        rw [isPrefixOf_iff_take, List.map_append, List.take_left' (by decide)]
        rfl
      rw [if_pos hpref, if_pos (List.mem_cons_self _ _), List.map_append,
        List.drop_left' (by decide)]
    · rw [AES_decrypt_bad k_u (nodes u) iv (TAG_VALID_B ++ k) he]
      rw [if_neg (tag_valid_not_prefix_encCT (nodes u) iv (TAG_VALID_B ++ k)), ih]
      by_cases hm : nodes u ∈ rest
      · rw [if_pos hm, if_pos (List.mem_cons.2 (Or.inr hm))]
      · rw [if_neg hm, if_neg (by
          intro hmem
          rcases List.mem_cons.1 hmem with h | h
          · exact he h
          · exact hm h)]

theorem assoc5 (a b c d e : List WSym) :
    ((a ++ b) ++ c) ++ d ++ e = (a ++ b) ++ (c ++ d ++ e) := by
  simp [List.append_assoc]

/-- Scanning the key-block region of a well-formed stream: the loop passes
over all blocks, recovering the content key exactly when some scanned cover
node's key is among the device's known keys, and stops at the separator. -/
theorem decryptLoop_keyblocks (ks : List (List Nat)) (nodes : Nat → List Nat)
    (k : List Nat) (hk : k.length = 16) (ivs : Nat → List Nat)
    (hiv : ∀ i, (ivs i).length = 16)
    (hsep : ∀ i, (ivs i).take 11 ≠ TAG_SEPARATOR_B) (tail : List WSym) :
    ∀ (cov : List Nat) (i0 : Nat) (rec : Option (List WSym)) (fuel : Nat),
      ((((cov.enumFrom i0).map (blockFn nodes k ivs)).flatten
          ++ TAG_SEPARATOR_S ++ tail).length ≤ fuel) →
      decryptLoop ks fuel
          (((cov.enumFrom i0).map (blockFn nodes k ivs)).flatten
            ++ TAG_SEPARATOR_S ++ tail) rec
        = (match rec with
           | some x => some x
           | none => if ∃ u ∈ cov, nodes u ∈ ks then some (k.map WSym.raw) else none,
           some (TAG_SEPARATOR_S ++ tail)) := by
  intro cov
  induction cov with
  | nil =>
    intro i0 rec fuel hfuel
    simp only [List.enumFrom_nil, List.map_nil, List.flatten_nil, List.nil_append]
      at hfuel ⊢
    have hlen : (TAG_SEPARATOR_S ++ tail).length = 11 + tail.length := by
      simp [TAG_SEPARATOR_S, TAG_SEPARATOR_B]
      omega
    cases fuel with
    | zero => omega
    | succ f =>
      rw [decryptLoop_sep_stop ks f _ rec
        (by intro h; rw [h] at hlen; simp at hlen; omega) (sep_isPrefixOf_append tail)]
      cases rec with
      | none => simp
      | some x => simp
  | cons u cov' ih =>
    intro i0 rec fuel hfuel
    have hBF : blockFn nodes k ivs (i0, u)
        = (ivs i0).map WSym.raw ++ encCT (nodes u) (ivs i0) (TAG_VALID_B ++ k) := rfl
    rw [List.enumFrom_cons, List.map_cons, List.flatten_cons, hBF, assoc5]
      at hfuel ⊢
    have hlen48 :
        ((ivs i0).map WSym.raw ++ encCT (nodes u) (ivs i0) (TAG_VALID_B ++ k)).length
          = 48 := by
      simp [hiv i0, length_encCT, hk, TAG_VALID_B]
    rw [List.length_append, hlen48] at hfuel
    cases fuel with
    | zero => omega
    | succ f =>
      have hfuel' :
          ((((cov'.enumFrom (i0 + 1)).map (blockFn nodes k ivs)).flatten
            ++ TAG_SEPARATOR_S ++ tail)).length ≤ f := by omega
      have hnonempty :
          ((ivs i0).map WSym.raw ++ encCT (nodes u) (ivs i0) (TAG_VALID_B ++ k))
            ++ (((cov'.enumFrom (i0 + 1)).map (blockFn nodes k ivs)).flatten
              ++ TAG_SEPARATOR_S ++ tail) ≠ [] := by
        intro h
        have := congrArg List.length h
        rw [List.length_append, hlen48] at this
        simp at this
      have hnosep :
          ¬ (TAG_SEPARATOR_S.isPrefixOf
            (((ivs i0).map WSym.raw ++ encCT (nodes u) (ivs i0) (TAG_VALID_B ++ k))
              ++ (((cov'.enumFrom (i0 + 1)).map (blockFn nodes k ivs)).flatten
                ++ TAG_SEPARATOR_S ++ tail)) = true) := by
        rw [List.append_assoc]
        exact sep_not_prefix_of_iv (ivs i0) (hiv i0) (hsep i0) _
      rw [decryptLoop_step ks f _ rec hnonempty hnosep,
        List.take_left' hlen48, List.drop_left' hlen48]
      cases rec with
      | some x => rw [ih (i0 + 1) (some x) f hfuel']
      | none =>
        show decryptLoop ks f _
            (tryKeys ks ((ivs i0).map WSym.raw
              ++ encCT (nodes u) (ivs i0) (TAG_VALID_B ++ k))) = _
        rw [tryKeys_block u nodes k hk (ivs i0) (hiv i0) ks]
        by_cases hm : nodes u ∈ ks
        · rw [if_pos hm, ih (i0 + 1) (some (k.map WSym.raw)) f hfuel']
          have h2 : ∃ x ∈ u :: cov', nodes x ∈ ks :=
            ⟨u, List.mem_cons_self u cov', hm⟩
          rw [if_pos h2]
        · rw [if_neg hm, ih (i0 + 1) none f hfuel']
          by_cases hex : ∃ u' ∈ cov', nodes u' ∈ ks
          · obtain ⟨u', hu', hku'⟩ := hex
            have h1 : ∃ x ∈ cov', nodes x ∈ ks := ⟨u', hu', hku'⟩
            have h2 : ∃ x ∈ u :: cov', nodes x ∈ ks :=
              ⟨u', List.mem_cons_of_mem u hu', hku'⟩
            rw [if_pos h1, if_pos h2]
          · have h2 : ¬ ∃ x ∈ u :: cov', nodes x ∈ ks := by
              rintro ⟨u', hu', hku'⟩
              rcases List.mem_cons.1 hu' with rfl | h
              · exact hm hku'
              · exact hex ⟨u', h, hku'⟩
            rw [if_neg hex, if_neg h2]

-- ### From the scan result to `decrypt`'s outcome

theorem decrypt_of_scan_none (a : AACS) (d : Nat) (c : List WSym)
    (x : Option (List WSym))
    (h : decryptLoop (a.known_keys d) c.length c none = (none, x)) :
    a.decrypt d c = Except.error DErr.keyNotFound := by
  unfold AACS.decrypt
  rw [h]

theorem decrypt_of_scan_sep_missing (a : AACS) (d : Nat) (c : List WSym)
    (kS : List WSym)
    (h : decryptLoop (a.known_keys d) c.length c none = (some kS, none)) :
    a.decrypt d c = Except.error DErr.separatorNotFound := by
  unfold AACS.decrypt
  rw [h]

theorem decrypt_of_scan (a : AACS) (d : Nat) (c : List WSym)
    (kS rest : List WSym)
    (h : decryptLoop (a.known_keys d) c.length c none = (some kS, some rest)) :
    a.decrypt d c
      = (match remove_paddingS (AES_decrypt kS
            ((rest.drop TAG_SEPARATOR_S.length).take 16)
            ((rest.drop TAG_SEPARATOR_S.length).drop 16)) with
         | none => Except.error DErr.padOutOfRange
         | some m => Except.ok m) := by
  unfold AACS.decrypt
  rw [h]

-- ### Padding round-trip

theorem pad_mod_bound (m : List Nat) :
    1 ≤ 16 - m.length % 16 ∧ 16 - m.length % 16 ≤ 16 := by
  have := Nat.mod_lt m.length (y := 16) (by omega)
  omega

theorem remove_padding_append_replicate (m : List Nat) (q : Nat) :
    remove_padding (m ++ List.replicate (q + 1) q) = some m := by
  have hlast : (m ++ List.replicate (q + 1) q).getLast? = some q := by
    rw [List.replicate_succ', ← List.append_assoc, List.getLast?_concat]
  unfold remove_padding
  rw [hlast]
  show some ((m ++ List.replicate (q + 1) q).take
      ((m ++ List.replicate (q + 1) q).length - (q + 1))) = some m
  have hlen : (m ++ List.replicate (q + 1) q).length = m.length + (q + 1) := by
    simp
  rw [hlen, Nat.add_sub_cancel, List.take_left]

theorem remove_add_padding (m : List Nat) :
    remove_padding (add_padding m) = some m := by
  have hb := pad_mod_bound m
  have h : 16 - m.length % 16 = (16 - m.length % 16 - 1) + 1 := by omega
  unfold add_padding
  show remove_padding
      (m ++ List.replicate (16 - m.length % 16) ((16 - m.length % 16) - 1)) = some m
  rw [h, Nat.add_sub_cancel]
  exact remove_padding_append_replicate m _

theorem remove_paddingS_append_replicate (ml : List WSym) (q : Nat) :
    remove_paddingS (ml ++ List.replicate (q + 1) (WSym.raw q)) = some ml := by
  have hlast : (ml ++ List.replicate (q + 1) (WSym.raw q)).getLast?
      = some (WSym.raw q) := by
    rw [List.replicate_succ', ← List.append_assoc, List.getLast?_concat]
  unfold remove_paddingS
  rw [hlast]
  show some ((ml ++ List.replicate (q + 1) (WSym.raw q)).take
      ((ml ++ List.replicate (q + 1) (WSym.raw q)).length - (q + 1))) = some ml
  have hlen : (ml ++ List.replicate (q + 1) (WSym.raw q)).length
      = ml.length + (q + 1) := by simp
  rw [hlen, Nat.add_sub_cancel, List.take_left]

theorem remove_paddingS_pad (m : List Nat) :
    remove_paddingS ((add_padding m).map WSym.raw) = some (m.map WSym.raw) := by
  have hb := pad_mod_bound m
  have h : 16 - m.length % 16 = (16 - m.length % 16 - 1) + 1 := by omega
  unfold add_padding
  show remove_paddingS
      ((m ++ List.replicate (16 - m.length % 16) ((16 - m.length % 16) - 1)).map
        WSym.raw) = some (m.map WSym.raw)
  rw [h, Nat.add_sub_cancel, List.map_append, List.map_replicate]
  exact remove_paddingS_append_replicate _ _

-- ### Exhausting the stream without meeting the separator

theorem decryptLoop_no_sep (ks : List (List Nat)) :
    ∀ (fuel : Nat) (c : List WSym) (rec : Option (List WSym)),
      c.length ≤ fuel →
      (∀ j, ¬ (TAG_SEPARATOR_S.isPrefixOf (c.drop (48 * j)) = true)) →
      (decryptLoop ks fuel c rec).2 = none := by
  intro fuel
  induction fuel with
  | zero =>
    intro c rec h1 _
    have hc : c = [] := List.length_eq_zero.1 (by omega)
    rw [hc, decryptLoop_nil]
  | succ f ih =>
    intro c rec h1 h2
    cases c with
    | nil => rw [decryptLoop_nil]
    | cons x xs =>
      have h0 := h2 0
      rw [Nat.mul_zero, List.drop_zero] at h0
      rw [decryptLoop_step ks f _ rec (by simp) h0]
      apply ih
      · simp only [List.length_drop, List.length_cons]
        simp only [List.length_cons] at h1
        omega
      · intro j
        rw [List.drop_drop, show (48 + 48 * j) = 48 * (j + 1) from by ring]
        exact h2 (j + 1)

-- ### The claims

/-- Claim C1 (code bug): the cover computed by `__get_S_cover` is NOT an
exact antichain cover of the valid set.  On the reachable state `AACS(4)`
after `revoke(4); revoke(5)` the cover is `(3, 4, 5)`: it contains the
revoked leaves 4 and 5 themselves, and the union of its leaf-descendant sets
is all of `{4, 5, 6, 7}` instead of `validSet = {6, 7}`.  On `AACS(8)` after
`revoke(8); revoke(10)` the cover `(3, 4, 5, 9, 11)` even contains the pair
4 and 9 with 4 an ancestor of 9, so it is not an antichain either. -/
theorem c1_cover_invariant_fails :
    Reachable exA4 ∧
    exA4.S_cover = [3, 4, 5] ∧
    exA4.T = {4, 5} ∧
    exA4.S = {6, 7} ∧
    exA4.S_cover.toFinset.biUnion (leafDescendants 2) = {4, 5, 6, 7} ∧
    exA4.S_cover.toFinset.biUnion (leafDescendants 2) ≠ exA4.S ∧
    Reachable exA8 ∧
    exA8.S_cover = [3, 4, 5, 9, 11] ∧
    4 ∈ exA8.S_cover ∧ 9 ∈ exA8.S_cover ∧ 4 ∈ get_path_to_root 9 ∧ (4 : Nat) ≠ 9 :=
  ⟨Reachable.revoke _ 5 (Reachable.revoke _ 4 (Reachable.init 4 exKeys)),
   by decide, by decide, by decide, by decide, by decide,
   Reachable.revoke _ 10 (Reachable.revoke _ 8 (Reachable.init 8 exKeys)),
   by decide, by decide, by decide, by decide, by decide⟩

/-- Claim C2 (code bug): revocation exclusion fails as soon as two devices
are revoked.  On `AACS(4)` after `revoke(4); revoke(5)`, leaf 4 is revoked,
yet `decrypt(4, encrypt(m))` succeeds and returns `m` — the buggy cover
`(3, 4, 5)` contains node 4 itself, which lies on device 4's root path. -/
theorem c2_revoked_device_decrypts :
    4 ∈ exA4.T ∧
    exA4.decrypt 4 (exA4.encrypt exK exIvs exIvc [1, 2, 3])
      = Except.ok ([1, 2, 3].map WSym.raw) :=
  ⟨by decide, by decide⟩

/-- Claim C3, counterexample to the unrestricted statement: with nominal
size `n = 3` (not a power of two) the tree has 4 leaves but
`len(S) == n` is false even with nothing revoked, so the initial cover is
empty and the fully valid leaf 4 cannot decrypt: the round trip fails with
`KeyNotFound`. -/
theorem c3_roundtrip_fails_nonpow2 :
    (4 : Nat) ∈ (AACS.init 3 exKeys).S ∧
    (AACS.init 3 exKeys).T = ∅ ∧
    (AACS.init 3 exKeys).decrypt 4
        ((AACS.init 3 exKeys).encrypt exK exIvs exIvc [1, 2, 3])
      = Except.error DErr.keyNotFound ∧
    (Except.error DErr.keyNotFound : Except DErr (List WSym))
      ≠ Except.ok ([1, 2, 3].map WSym.raw) := by
  refine ⟨by decide, by decide, by decide, by decide⟩

/-- Claim C3 (amended: the tree's nominal size is a power of two,
`n = 2 ^ t`): on every reachable state, for every message `m` and every
leaf `d` still in the valid set, `decrypt(d, encrypt(m)) = m`.  The content
key is 16 bytes, IVs are 16 bytes, and no key-block IV accidentally starts
with the separator bytes (the ideal-cipher/no-collision assumption the
claim itself makes). -/
theorem aacs_roundtrip (a : AACS) (hR : Reachable a) (hn : a.n = 2 ^ a.t)
    (d : Nat) (hd : d ∈ a.S) (m k : List Nat) (hk : k.length = 16)
    (ivs : Nat → List Nat) (hiv : ∀ i, (ivs i).length = 16)
    (hsep : ∀ i, (ivs i).take 11 ≠ TAG_SEPARATOR_B)
    (ivc : List Nat) (hivc : ivc.length = 16) :
    a.decrypt d (a.encrypt k ivs ivc m) = Except.ok (m.map WSym.raw) := by
  have hG := reachable_good hR
  obtain ⟨u, hu_cov, hu_path⟩ := scover_meets_path a hG hn d hd
  have hks : a.nodes u ∈ a.known_keys d := List.mem_map_of_mem a.nodes hu_path
  have hscan : decryptLoop (a.known_keys d) (a.encrypt k ivs ivc m).length
      (a.encrypt k ivs ivc m) none
      = (some (k.map WSym.raw),
         some (TAG_SEPARATOR_S ++ (ivc.map WSym.raw ++ encCT k ivc (add_padding m)))) := by
    have h0 := decryptLoop_keyblocks (a.known_keys d) a.nodes k hk ivs hiv hsep
      (ivc.map WSym.raw ++ encCT k ivc (add_padding m)) a.S_cover 0 none
      (a.encrypt k ivs ivc m).length le_rfl
    rw [if_pos (⟨u, hu_cov, hks⟩ : ∃ x ∈ a.S_cover, a.nodes x ∈ a.known_keys d)] at h0
    exact h0
  rw [decrypt_of_scan a d _ _ _ hscan, List.drop_left,
    List.take_left' (by simp [hivc]), List.drop_left' (by simp [hivc]),
    AES_decrypt_good, remove_paddingS_pad]

/-- Witness for `aacs_roundtrip` on the freshly constructed two-leaf tree. -/
theorem aacs_roundtrip_witness :
    (AACS.init 2 exKeys).decrypt 2
        ((AACS.init 2 exKeys).encrypt exK exIvs exIvc [1, 2, 3])
      = Except.ok ([1, 2, 3].map WSym.raw) :=
  aacs_roundtrip (AACS.init 2 exKeys) (Reachable.init 2 exKeys) (by decide) 2 (by decide)
    [1, 2, 3] exK (by decide) exIvs
    (fun _ => by show (List.replicate 16 200).length = 16; decide)
    (fun _ => by show (List.replicate 16 200).take 11 ≠ TAG_SEPARATOR_B; decide)
    exIvc (by decide)

/-- Claim C4, counterexample to the unrestricted statement: for `n = 3`
the freshly constructed engine has an empty cover, not `(1,)`, because
`len(S)` is the leaf count 4 while `n` is 3. -/
theorem c4_cover_empty_n3 :
    (AACS.init 3 exKeys).T = ∅ ∧ (AACS.init 3 exKeys).S_cover = [] ∧
    (AACS.init 3 exKeys).S_cover ≠ [1] := by decide

/-- Claim C4 (amended: the tree's nominal size is a power of two): on every
reachable state with an empty revoked set — in particular right after
construction — the cover is exactly `[1]`. -/
theorem cover_of_no_revocation (a : AACS) (hR : Reachable a) (hn : a.n = 2 ^ a.t)
    (hT : a.T = ∅) : a.S_cover = [1] :=
  scover_of_empty a (reachable_good hR) hn hT

/-- Witness for `cover_of_no_revocation` on the four-leaf tree. -/
theorem cover_of_no_revocation_witness : (AACS.init 4 exKeys).S_cover = [1] :=
  cover_of_no_revocation (AACS.init 4 exKeys) (Reachable.init 4 exKeys) (by decide) (by decide)

/-- Claim C5, counterexample to the stated error priority: on the empty
stream the scan exhausts the input without ever meeting the separator, yet
`decrypt` fails with `KeyNotFound` (the code checks `keep_searching`
first), not `SeparatorNotFound` as the claim asserts. -/
theorem c5_exhausted_without_key_is_keynotfound :
    (AACS.init 2 exKeys).decrypt 2 [] = Except.error DErr.keyNotFound ∧
    Except.error (α := List WSym) DErr.keyNotFound
      ≠ Except.error DErr.separatorNotFound := by decide

/-- Claim C5 (amended): `KeyNotFound` has priority.  If the scan recovers no
key, `decrypt` fails with `KeyNotFound` whether or not the separator was
found; `SeparatorNotFound` is raised only when a key was recovered but the
stream was exhausted without the separator appearing at any 48-byte stride
boundary. -/
theorem decrypt_error_priority (a : AACS) (d : Nat) (c : List WSym) :
    ((decryptLoop (a.known_keys d) c.length c none).1 = none →
      a.decrypt d c = Except.error DErr.keyNotFound) ∧
    ((∀ j, ¬ (TAG_SEPARATOR_S.isPrefixOf (c.drop (48 * j)) = true)) →
      ∀ kS, (decryptLoop (a.known_keys d) c.length c none).1 = some kS →
        a.decrypt d c = Except.error DErr.separatorNotFound) := by
  constructor
  · intro h
    rcases hres : decryptLoop (a.known_keys d) c.length c none with ⟨r1, r2⟩
    rw [hres] at h
    have h1 : r1 = none := h
    subst h1
    exact decrypt_of_scan_none a d c r2 hres
  · intro hns kS h
    have h2 := decryptLoop_no_sep (a.known_keys d) c.length c none le_rfl hns
    rcases hres : decryptLoop (a.known_keys d) c.length c none with ⟨r1, r2⟩
    rw [hres] at h h2
    have h1 : r1 = some kS := h
    have h2' : r2 = none := h2
    subst h1; subst h2'
    exact decrypt_of_scan_sep_missing a d c kS hres

/-- Witness for `decrypt_error_priority`: the empty stream gives
`KeyNotFound`; a lone key block recoverable by the device, with the stream
truncated before any separator, gives `SeparatorNotFound`. -/
theorem decrypt_error_priority_witness :
    (AACS.init 2 exKeys).decrypt 2 [] = Except.error DErr.keyNotFound ∧
    (AACS.init 2 exKeys).decrypt 2 exBlock = Except.error DErr.separatorNotFound :=
  ⟨(decrypt_error_priority (AACS.init 2 exKeys) 2 []).1 (by decide),
   (decrypt_error_priority (AACS.init 2 exKeys) 2 exBlock).2
     (fun j => by
        cases j with
        | zero => decide
        | succ q =>
          rw [List.drop_eq_nil_of_le (by
            have hb : exBlock.length = 48 := by decide
            rw [hb]; omega)]
          decide)
     (exK.map WSym.raw) (by decide)⟩

/-- Claim C6: `revoke(id)` returns `True` iff `id ∈ validSet`; on success it
moves `id` from `S` to `T` and fully rebuilds the cover from the updated
sets, on failure the state is completely unchanged, and a second call with
the same `id` returns `False` and leaves the state of the first call
untouched. -/
theorem revoke_spec (a : AACS) (id : Nat) :
    ((a.revoke id).1 = true ↔ id ∈ a.S) ∧
    (id ∈ a.S → (a.revoke id).2
      = (let a' := { a with S := a.S.erase id, T := insert id a.T }
         { a' with S_cover := a'.getScover })) ∧
    (id ∉ a.S → (a.revoke id).2 = a) ∧
    ((a.revoke id).2.revoke id).1 = false ∧
    ((a.revoke id).2.revoke id).2 = (a.revoke id).2 := by
  by_cases hid : id ∈ a.S
  · refine ⟨by simp [AACS.revoke, hid], fun _ => by simp [AACS.revoke, hid],
      fun h => absurd hid h, ?_, ?_⟩ <;>
      simp [AACS.revoke, hid, Finset.not_mem_erase]
  · refine ⟨by simp [AACS.revoke, hid], fun h => absurd h hid,
      fun _ => by simp [AACS.revoke, hid], ?_, ?_⟩ <;>
      simp [AACS.revoke, hid]

/-- Witness for `revoke_spec`: revoking leaf 4 of `AACS(4)` twice — the
second call reports failure. -/
theorem revoke_spec_witness :
    (((AACS.init 4 exKeys).revoke 4).2.revoke 4).1 = false :=
  (revoke_spec (AACS.init 4 exKeys) 4).2.2.2.1

/-- Helper for Claim C7: a stream region made of 48-byte blocks has length
`48 * blockCount`. -/
theorem flatten_length_const (bl : List (List WSym)) (h : ∀ b ∈ bl, b.length = 48) :
    bl.flatten.length = 48 * bl.length := by
  induction bl with
  | nil => simp
  | cons b rest ih =>
    rw [List.flatten_cons, List.length_append, h b (List.mem_cons_self b rest),
      ih (fun x hx => h x (List.mem_cons_of_mem b hx)), List.length_cons]
    ring

/-- Claim C7: `encrypt` emits exactly one 48-byte key block (16-byte IV plus
the 32-byte encryption of marker‖key) per cover node, in the cover's
ascending order, then the literal 11-byte separator at byte offset
`48 * coverSize`, then the 16-byte content IV and the encryption of the
padded message. -/
theorem encrypt_wire_format (a : AACS) (k : List Nat) (hk : k.length = 16)
    (ivs : Nat → List Nat) (hiv : ∀ i, (ivs i).length = 16)
    (ivc : List Nat) (m : List Nat) (hG : a.S_cover = a.getScover) :
    ∃ blocks : List (List WSym),
      a.encrypt k ivs ivc m
          = blocks.flatten ++ TAG_SEPARATOR_S
            ++ (ivc.map WSym.raw ++ encCT k ivc (add_padding m)) ∧
      blocks = a.S_cover.enum.map (blockFn a.nodes k ivs) ∧
      blocks.length = a.S_cover.length ∧
      (∀ b ∈ blocks, b.length = 48) ∧
      TAG_SEPARATOR_S.length = 11 ∧
      (a.encrypt k ivs ivc m).take (48 * a.S_cover.length) = blocks.flatten ∧
      (a.encrypt k ivs ivc m).drop (48 * a.S_cover.length)
        = TAG_SEPARATOR_S ++ (ivc.map WSym.raw ++ encCT k ivc (add_padding m)) ∧
      List.Sorted (· ≤ ·) a.S_cover := by
  have hblen : ∀ b ∈ a.S_cover.enum.map (blockFn a.nodes k ivs), b.length = 48 := by
    intro b hb
    obtain ⟨p, -, rfl⟩ := List.mem_map.1 hb
    simp [blockFn, hiv p.1, length_encCT, hk, TAG_VALID_B]
  have hflen : (a.S_cover.enum.map (blockFn a.nodes k ivs)).flatten.length
      = 48 * a.S_cover.length := by
    rw [flatten_length_const _ hblen, List.length_map, List.enum_length]
  have hshape : a.encrypt k ivs ivc m
      = (a.S_cover.enum.map (blockFn a.nodes k ivs)).flatten
        ++ (TAG_SEPARATOR_S ++ (ivc.map WSym.raw ++ encCT k ivc (add_padding m))) := by
    unfold AACS.encrypt
    rw [List.append_assoc]
  refine ⟨a.S_cover.enum.map (blockFn a.nodes k ivs), rfl, rfl,
    by rw [List.length_map, List.enum_length], hblen, rfl, ?_, ?_, ?_⟩
  · rw [hshape, List.take_left' hflen]
  · rw [hshape, List.drop_left' hflen]
  · rw [hG]
    unfold AACS.getScover
    exact sorted_sortedOf _

/-- Witness for `encrypt_wire_format`: on the two-leaf tree the separator
and everything after it sit at offset `48 * coverSize`. -/
theorem encrypt_wire_format_witness :
    ((AACS.init 2 exKeys).encrypt exK exIvs exIvc [1, 2, 3]).drop
        (48 * (AACS.init 2 exKeys).S_cover.length)
      = TAG_SEPARATOR_S
        ++ (exIvc.map WSym.raw ++ encCT exK exIvc (add_padding [1, 2, 3])) := by
  obtain ⟨bl, -, -, -, -, -, -, hdrop, -⟩ :=
    encrypt_wire_format (AACS.init 2 exKeys) exK (by decide) exIvs
      (fun _ => by show (List.replicate 16 200).length = 16; decide)
      exIvc [1, 2, 3] (by decide)
  exact hdrop

/-- Claim C8, counterexample to the spec's parity: the sibling of the even
node 2 is 3 = 2 + 1, not 2 - 1 as the spec's sentence says. -/
theorem c8_sibling_of_two : get_sibling 2 = 3 ∧ get_sibling 2 ≠ 2 - 1 := by decide

/-- Claim C8 (amended: the parity is the other way around): for every node
id `i ≥ 2`, `get_parent i = i / 2`, and `get_sibling i` is `i + 1` for even
`i` and `i - 1` for odd `i`. -/
theorem parent_sibling_arith (i : Nat) (hi : 2 ≤ i) :
    get_parent i = i / 2 ∧
    get_sibling i = (if i % 2 = 0 then i + 1 else i - 1) := by
  refine ⟨rfl, ?_⟩
  unfold get_sibling
  rcases Nat.mod_two_eq_zero_or_one i with h | h <;> simp [h]

/-- Witness for `parent_sibling_arith` at `i = 6`. -/
theorem parent_sibling_arith_witness :
    get_parent 6 = 6 / 2 ∧ get_sibling 6 = (if 6 % 2 = 0 then 6 + 1 else 6 - 1) :=
  parent_sibling_arith 6 (by decide)

/-- Claim C9: `add_padding` appends `p = 16 - len(m) % 16 ∈ [1, 16]` bytes
of value `p - 1`, the padded length is a positive multiple of 16, and
`remove_padding` undoes it exactly, for every byte string including the
empty one and block-aligned ones. -/
theorem padding_roundtrip (m : List Nat) :
    add_padding m
        = m ++ List.replicate (16 - m.length % 16) ((16 - m.length % 16) - 1) ∧
    1 ≤ 16 - m.length % 16 ∧ 16 - m.length % 16 ≤ 16 ∧
    (add_padding m).length = m.length + (16 - m.length % 16) ∧
    (add_padding m).length % 16 = 0 ∧
    0 < (add_padding m).length ∧
    remove_padding (add_padding m) = some m := by
  have hb := pad_mod_bound m
  have hlen : (add_padding m).length = m.length + (16 - m.length % 16) := by
    simp [add_padding]
  refine ⟨rfl, hb.1, hb.2, hlen, ?_, ?_, remove_add_padding m⟩
  · rw [hlen]; omega
  · rw [hlen]; omega

/-- Claim C10: `remove_padding` is not total — on the empty byte string the
source reads `m[-1]` out of range (modelled by `none`) — and `decrypt` can
reach exactly that out-of-range access: on a stream holding one key block
the device can open followed immediately by the separator and nothing else,
decryption fails with the unpadding index error, not with `KeyNotFound` or
`SeparatorNotFound`. -/
theorem remove_padding_empty_out_of_range :
    remove_padding [] = none ∧
    remove_paddingS [] = none ∧
    (AACS.init 2 exKeys).decrypt 2 truncStream = Except.error DErr.padOutOfRange ∧
    DErr.padOutOfRange ≠ DErr.keyNotFound ∧
    DErr.padOutOfRange ≠ DErr.separatorNotFound := by decide
